import Mathlib

/-!
Spell-check coordinator of chatterino2.

A shallow embedding of `src/widgets/helper/SpellChecker.cpp`:
the enable flag, the personal dictionary, the memoising verdict cache and the
delegation to the platform's native backend, followed by the properties of the
specification that concern them. The embedding also covers
`src/widgets/helper/SpellCheckHighlighter.cpp` (the word pattern, the loop of
`highlightBlock` and the debounce timer) and, of `src/singletons/Theme.cpp`,
the list of available themes and `Theme::update`.

Conventions of the embedding.
* A member function that mutates the object takes the state and returns the new
  state (together with its result, when it has one).
* The native backend (Hunspell, the Windows spell-checking API, NSSpellChecker)
  is not part of the repository: it is a pair of functions held behind an
  optional handle, `none` standing for the null handle.
* A `QString` is the list of its UTF-16 code units, so lengths and offsets are
  those of `QString::length` and `capturedStart`; a character outside the Basic
  Multilingual Plane is two units.
* The Unicode tables of the Qt library (case folding, white space) are not part
  of the repository either: they are a parameter of the functions that use them.
* The pattern `\b[A-Za-z']+\b` is embedded by a matcher that follows the pattern
  engine: leftmost match first, greedy repetition, ASCII `\w` for `\b`.
* Files, JSON parsing and the colour parsing of `Theme::parseFrom` are a
  parameter of the theme functions.
-/

namespace chatterino

/-! ## Strings and the Qt library -/

/-- A `QChar`: one UTF-16 code unit, given by its value (a number below 65536;
a surrogate is a code unit like any other). -/
abbrev QChar := Nat

/-- A `QString`: a sequence of UTF-16 code units, one list element per code
unit, so that `List.length` is `QString::length` and a position in the list is
an offset as `QRegularExpressionMatch::capturedStart` counts it. A character
outside the Basic Multilingual Plane takes two elements, its two surrogates. -/
abbrev QString := List QChar

/-- The code unit of a character of the Basic Multilingual Plane. -/
def unit (c : Char) : QChar :=
  c.toNat

/-- The code units of one character: its code when below 65536, otherwise its
high and its low surrogate. -/
def utf16Units (c : Char) : List QChar :=
  if c.toNat < 65536 then [c.toNat]
  else [55296 + (c.toNat - 65536) / 1024, 56320 + (c.toNat - 65536) % 1024]

/-- The `QString` of a string literal: the code units of its characters. -/
def utf16 (s : String) : QString :=
  s.toList.flatMap utf16Units

/-- The test `QChar::isHighSurrogate`: a code unit from D800 to DBFF. -/
def isHighSurrogate (c : QChar) : Bool :=
  decide (55296 ≤ c ∧ c ≤ 56319)

/-- The test `QChar::isLowSurrogate`: a code unit from DC00 to DFFF. -/
def isLowSurrogate (c : QChar) : Bool :=
  decide (56320 ≤ c ∧ c ≤ 57343)

/-- The two character tables of the Qt library the component depends on.

* `foldCase last c`: the case folding a `Qt::CaseInsensitive` comparison
  applies to the code unit `c` that follows the code unit `last` (`none` at the
  start of the string); Qt folds a low surrogate together with the high
  surrogate before it, which is why the unit before is an argument.
* `isSpace c`: the test `QChar::isSpace`, which `QString::trimmed` strips. -/
structure QtTables where
  foldCase : Option QChar → QChar → Nat
  isSpace : QChar → Bool

/-- The restriction of the Qt tables to ASCII: `A`..`Z` fold to `a`..`z`, and
white space is the blank together with `\t`, `\n`, `\v`, `\f`, `\r`. -/
def asciiTables : QtTables where
  foldCase := fun _ c => if 65 ≤ c ∧ c ≤ 90 then c + 32 else c
  isSpace := fun c => c == 32 || (9 ≤ c && c ≤ 13)

/-- The code units of a string as a case-insensitive comparison sees them:
each unit folded, given the unit before it. -/
def folded (qt : QtTables) (last : Option QChar) : QString → List Nat
  | [] => []
  | c :: rest => qt.foldCase last c :: folded qt (some c) rest

/-- The test `QStringList::contains` applies to one entry under
`Qt::CaseInsensitive`: same length, and `QString::compare` finds the code units
equal after case folding. -/
def equalsIgnoreCase (qt : QtTables) (a b : QString) : Bool :=
  a.length == b.length && folded qt none a == folded qt none b

/-- The call `list.contains(str, Qt::CaseInsensitive)` on a `QStringList`. -/
def QStringList.contains (qt : QtTables) (list : List QString) (str : QString) : Bool :=
  list.any (fun entry => equalsIgnoreCase qt entry str)

/-- The function `QString::trimmed`: white space removed from both ends. -/
def trimmed (qt : QtTables) (s : QString) : QString :=
  ((s.dropWhile qt.isSpace).reverse.dropWhile qt.isSpace).reverse

/-- The function `QList::mid(pos, length)`: at most `length` elements starting
at `pos`. -/
def mid (l : List QString) (pos length : Nat) : List QString :=
  (l.drop pos).take length

/-! ## The verdict cache (`QHash<QString, bool>`) -/

/-- The content of a `QHash<QString, bool>` as an association list; the first
pair with a given key is the entry of that key. -/
abbrev QHash := List (QString × Bool)

/-- The entry stored under `key`, if there is one. -/
def QHash.find : QHash → QString → Option Bool
  | [], _ => none
  | (k, v) :: rest, key => if k = key then some v else QHash.find rest key

/-- The function `QHash::contains(key)`. -/
def QHash.contains (h : QHash) (key : QString) : Bool :=
  (QHash.find h key).isSome

/-- Reading `h[key]`: the stored value, a default-constructed `bool` (false)
when the key is absent. -/
def QHash.value (h : QHash) (key : QString) : Bool :=
  (QHash.find h key).getD false

/-- The assignment `h[key] = v`: the entry of `key` is created or replaced,
the other entries are kept. -/
def QHash.insert (h : QHash) (key : QString) (v : Bool) : QHash :=
  (key, v) :: h.filter (fun entry => !decide (entry.1 = key))

/-! ## The native backend -/

/-- The native spell checker behind the platform handle (`m_hunspell`,
`m_spellChecker` or `m_nsSpellChecker`): `spell word` is the verdict the
platform branch of `isWordCorrect` computes from it, `suggest word` the
candidates the platform branch of `suggestions` collects from it, in order. -/
structure Backend where
  spell : QString → Bool
  suggest : QString → List QString

/-! ## The coordinator -/

/-- The state of a `SpellChecker` object and of the part of its environment it
reads and writes.

* `m_enabled`, `m_personalDictionary`, `m_wordCache`: the members of the class;
* `m_backend`: the platform handle, `none` when it is null;
* `dictFile`: the text of `personal_dictionary.txt` as a text stream reads it,
  `none` when the file cannot be opened for reading;
* `dictFileWritable`: whether the file can be opened for writing;
* `backendCalls`: a ghost counter, the number of verdicts asked of the native
  backend so far. -/
structure SpellChecker where
  m_enabled : Bool
  m_personalDictionary : List QString
  m_wordCache : QHash
  m_backend : Option Backend
  dictFile : Option QString
  dictFileWritable : Bool
  backendCalls : Nat

namespace SpellChecker

/-- The lines `QTextStream::readLine` returns until `atEnd`: the lines of the text, each
ended by `\n` or by the end of the text, a carriage return before the line end
dropped. `cur` is the line being read, `none` at the start of a line. -/
def readLines : QString → Option QString → List QString
  | [], none => []
  | [], some cur => [if cur.getLast? = some (unit '\r') then cur.dropLast else cur]
  | c :: rest, cur =>
    if c = (unit '\n') then
      (if (cur.getD []).getLast? = some (unit '\r') then (cur.getD []).dropLast else cur.getD [])
        :: readLines rest none
    else readLines rest (some (cur.getD [] ++ [c]))

/-- The loop of `loadPersonalDictionary` over the lines read: every line is
trimmed and appended when it is not empty. -/
def appendLines (qt : QtTables) (dict : List QString) : List QString → List QString
  | [] => dict
  | line :: rest =>
    let word := trimmed qt line
    if !word.isEmpty then appendLines qt (dict ++ [word]) rest
    else appendLines qt dict rest

/-- The member `SpellChecker::loadPersonalDictionary`: when the file opens for
reading, its non-blank lines are appended, trimmed, to the dictionary. -/
def loadPersonalDictionary (qt : QtTables) (s : SpellChecker) : SpellChecker :=
  match s.dictFile with
  | some text =>
    { s with m_personalDictionary := appendLines qt s.m_personalDictionary (readLines text none) }
  | none => s

/-- The member `SpellChecker::savePersonalDictionary`: when the file opens for writing it
is rewritten with every entry followed by a newline. -/
def savePersonalDictionary (s : SpellChecker) : SpellChecker :=
  if s.dictFileWritable then
    { s with
      dictFile := some (s.m_personalDictionary.foldl (fun text word => text ++ word ++ [unit '\n']) []) }
  else s

/-- The constructor: `enableSpellCheck` is the value of the setting,
`platform` what `initializePlatformSpellChecker` leaves in the handle (`none`
when the native checker could not be created); the personal dictionary is then
loaded. -/
def construct (qt : QtTables) (enableSpellCheck : Bool) (platform : Option Backend)
    (dictFile : Option QString) (dictFileWritable : Bool) : SpellChecker :=
  loadPersonalDictionary qt
    { m_enabled := enableSpellCheck
      m_personalDictionary := []
      m_wordCache := []
      m_backend := platform
      dictFile := dictFile
      dictFileWritable := dictFileWritable
      backendCalls := 0 }

/-- The member `SpellChecker::isWordCorrect`: the verdict and the state after
the call. The three platform branches have one shape: the verdict stays false
unless the handle is not null, in which case it is the verdict of the backend. -/
def isWordCorrect (qt : QtTables) (s : SpellChecker) (word : QString) : Bool × SpellChecker :=
  if !s.m_enabled || word.isEmpty || decide (word.length < 2) then (true, s)
  else if QHash.contains s.m_wordCache word then (QHash.value s.m_wordCache word, s)
  else if QStringList.contains qt s.m_personalDictionary word then
    (true, { s with m_wordCache := QHash.insert s.m_wordCache word true })
  else
    match s.m_backend with
    | some backend =>
      let correct := backend.spell word
      (correct, { s with m_wordCache := QHash.insert s.m_wordCache word correct
                         backendCalls := s.backendCalls + 1 })
    | none =>
      let correct := false
      (correct, { s with m_wordCache := QHash.insert s.m_wordCache word correct })

/-- The member `SpellChecker::suggestions`: the candidates of the backend, none
when the handle is null, cut by `mid(0, 5)`. The enable flag is not read. -/
def suggestions (s : SpellChecker) (word : QString) : List QString :=
  let suggestions : List QString :=
    match s.m_backend with
    | some backend => backend.suggest word
    | none => []
  mid suggestions 0 5

/-- The member `SpellChecker::addToPersonalDictionary`: unless the dictionary
holds the word ignoring case, append it, save the dictionary, and set the cache
entry of the word to true. -/
def addToPersonalDictionary (qt : QtTables) (s : SpellChecker) (word : QString) : SpellChecker :=
  if !QStringList.contains qt s.m_personalDictionary word then
    let s1 := { s with m_personalDictionary := s.m_personalDictionary ++ [word] }
    let s2 := savePersonalDictionary s1
    { s2 with m_wordCache := QHash.insert s2.m_wordCache word true }
  else s

/-- Modelled from the spec: `SpellChecker::setEnabled`, declared in
`SpellChecker.hpp` and not defined in the sources; it sets the enable flag and
does not by itself clear the cache. -/
def setEnabled (s : SpellChecker) (enabled : Bool) : SpellChecker :=
  { s with m_enabled := enabled }

end SpellChecker

/-- The states a coordinator can be in: the state after construction, and the
states after any further call of `isWordCorrect`, `addToPersonalDictionary` or
`setEnabled`. -/
inductive Reachable (qt : QtTables) : SpellChecker → Prop
  | construct (enableSpellCheck : Bool) (platform : Option Backend)
      (dictFile : Option QString) (dictFileWritable : Bool) :
      Reachable qt (SpellChecker.construct qt enableSpellCheck platform dictFile dictFileWritable)
  | isWordCorrect (s : SpellChecker) (word : QString) :
      Reachable qt s → Reachable qt (SpellChecker.isWordCorrect qt s word).2
  | addToPersonalDictionary (s : SpellChecker) (word : QString) :
      Reachable qt s → Reachable qt (SpellChecker.addToPersonalDictionary qt s word)
  | setEnabled (s : SpellChecker) (enabled : Bool) :
      Reachable qt s → Reachable qt (SpellChecker.setEnabled s enabled)

/-- Every true verdict of the cache is backed by the personal dictionary or by
the backend: a word cached as correct equals a dictionary entry ignoring case
or is accepted by the backend. -/
def CacheSound (qt : QtTables) (s : SpellChecker) : Prop :=
  ∀ word, QHash.find s.m_wordCache word = some true →
    QStringList.contains qt s.m_personalDictionary word = true ∨
      ∃ backend, s.m_backend = some backend ∧ backend.spell word = true

/-! ## The highlighter (`SpellCheckHighlighter.cpp`) -/

/-- Whether the code of `c` lies between the codes of `lo` and `hi`. -/
def inRange (lo hi : Char) (c : QChar) : Bool :=
  decide (lo.toNat ≤ c ∧ c ≤ hi.toNat)

/-- The apostrophe, code 39. -/
def apostrophe : QChar := 39

/-- The class `\w` of the pattern engine, which `QRegularExpression` uses
without Unicode properties: ASCII letters, digits and the underscore. -/
def isWordChar (c : QChar) : Bool :=
  inRange 'a' 'z' c || inRange 'A' 'Z' c || inRange '0' '9' c || c == unit '_'

/-- The class `[A-Za-z']` of the pattern of `highlightBlock`. -/
def inWordClass (c : QChar) : Bool :=
  inRange 'A' 'Z' c || inRange 'a' 'z' c || c == apostrophe

/-- The assertion `\b` at a position, given the characters before and after it
(`none` at the start and at the end of the text): exactly one of the two is a
`\w` character. -/
def wordBoundary (before after : Option QChar) : Bool :=
  before.any isWordChar != after.any isWordChar

/-- The rest of `[A-Za-z']+\b` once the character `last` of the class has been
taken: the further characters of the match. The repetition is greedy and gives
characters back until `\b` holds, so the longest end that fits is chosen;
`none` when no end fits. -/
def classRun (last : QChar) : QString → Option QString
  | [] => if wordBoundary (some last) none then some [] else none
  | c :: rest =>
    match (if inWordClass c then classRun c rest else none) with
    | some further => some (c :: further)
    | none => if wordBoundary (some last) (some c) then some [] else none

/-- One attempt of `\b[A-Za-z']+\b` at a position: `before` is the character
before the position, the argument the text from the position on; the result is
the matched text. -/
def matchWordAt (before : Option QChar) : QString → Option QString
  | [] => none
  | c :: rest =>
    if wordBoundary before (some c) && inWordClass c then
      (classRun c rest).map (fun further => c :: further)
    else none

/-- A `QRegularExpressionMatch` of the pattern: `capturedStart()` and
`captured(0)`. -/
structure QRegularExpressionMatch where
  capturedStart : Nat
  captured : QString

/-- The function `QRegularExpressionMatch::capturedLength`. -/
def QRegularExpressionMatch.capturedLength (m : QRegularExpressionMatch) : Nat :=
  m.captured.length

/-- The matches `wordRegex.globalMatch` iterates over, from position `pos` on:
the pattern is tried at every position from left to right, and after a match
the search resumes at its end. `before` is the character before `pos`, `skip`
the number of characters of the last match still to pass. -/
def globalMatchFrom (before : Option QChar) (pos skip : Nat) :
    QString → List QRegularExpressionMatch
  | [] => []
  | c :: rest =>
    match skip with
    | k + 1 => globalMatchFrom (some c) (pos + 1) k rest
    | 0 =>
      match matchWordAt before (c :: rest) with
      | some word =>
        { capturedStart := pos, captured := word }
          :: globalMatchFrom (some c) (pos + 1) (word.length - 1) rest
      | none => globalMatchFrom (some c) (pos + 1) 0 rest

/-- Whether a string is well-formed UTF-16: every high surrogate is followed by
a low surrogate and every low surrogate follows a high one. -/
def validUtf16 : QString → Bool
  | [] => true
  | [c] => !isHighSurrogate c && !isLowSurrogate c
  | c :: d :: rest =>
    if isHighSurrogate c then isLowSurrogate d && validUtf16 rest
    else !isLowSurrogate c && validUtf16 (d :: rest)

/-- The call `wordRegex.globalMatch(text)` for the pattern `\b[A-Za-z']+\b`.
`QRegularExpression` checks the subject for UTF-16 validity (the match option
`DontCheckSubjectStringMatchOption` is not given) and finds no match in a
subject that is not well formed. In a well-formed subject the pattern, which
matches ASCII characters only and tests `\b` against ASCII `\w`, can be
followed code unit by code unit: a surrogate is neither in the class nor a `\w`
character, as the character it encodes. -/
def globalMatch (text : QString) : List QRegularExpressionMatch :=
  if validUtf16 text then globalMatchFrom none 0 0 text else []

/-- The test `word.contains(QRegularExpression("^[0-9]+$"))`: the word is one
or more digits, `$` also holding before a line feed that ends the word. -/
def containsDigitsOnly (word : QString) : Bool :=
  let body := if word.getLast? = some (unit '\n') then word.dropLast else word
  !body.isEmpty && body.all (fun c => inRange '0' '9' c)

/-- What a call of `highlightBlock` does: the `setFormat(start, count,
m_misspelledFormat)` calls it makes, in order; the words it passes to
`isWordCorrect`, in order (a ghost record); and the coordinator afterwards. -/
structure Highlighting where
  formats : List (Nat × Nat)
  queries : List QString
  checker : SpellChecker

namespace SpellChecker

/-- Modelled from the spec: `SpellChecker::isEnabled`, declared in
`SpellChecker.hpp` and not defined in the sources; it returns the enable
flag. -/
def isEnabled (s : SpellChecker) : Bool :=
  s.m_enabled

end SpellChecker

/-- The `while (i.hasNext())` loop of `highlightBlock` over the matches still
to come. -/
def highlightMatches (qt : QtTables) : List QRegularExpressionMatch → Highlighting → Highlighting
  | [], acc => acc
  | m :: rest, acc =>
    let word := m.captured
    if decide (word.length < 3) || word.head? == some (unit '@') || containsDigitsOnly word then
      highlightMatches qt rest acc
    else
      let verdict := SpellChecker.isWordCorrect qt acc.checker word
      if !verdict.1 then
        highlightMatches qt rest
          { formats := acc.formats ++ [(m.capturedStart, m.capturedLength)]
            queries := acc.queries ++ [word]
            checker := verdict.2 }
      else
        highlightMatches qt rest
          { formats := acc.formats
            queries := acc.queries ++ [word]
            checker := verdict.2 }

/-- The member `SpellCheckHighlighter::highlightBlock`, for a highlighter whose
`m_spellChecker` points to the coordinator `checker`: nothing happens when the
coordinator is disabled, otherwise the matches of the pattern are walked. -/
def highlightBlock (qt : QtTables) (checker : SpellChecker) (text : QString) : Highlighting :=
  if !checker.isEnabled then { formats := [], queries := [], checker := checker }
  else highlightMatches qt (globalMatch text) { formats := [], queries := [], checker := checker }

/-- A `QTimer` as far as the highlighter uses it. -/
structure QTimer where
  singleShot : Bool
  interval : Nat
  active : Bool

/-- The function `QTimer::start()`: the timer runs, from the beginning of its
interval when it was running already. -/
def QTimer.start (t : QTimer) : QTimer :=
  { t with active := true }

/-- The debounce state of a `SpellCheckHighlighter`: its timer and, as a ghost
counter, the number of `rehighlight()` calls the timer has triggered. -/
structure SpellCheckHighlighter where
  m_rehighlightTimer : QTimer
  rehighlights : Nat

namespace SpellCheckHighlighter

/-- The constructor: a single-shot timer of 100 ms, not started, its `timeout`
connected to `rehighlight`. -/
def construct : SpellCheckHighlighter :=
  { m_rehighlightTimer := { singleShot := true, interval := 100, active := false }
    rehighlights := 0 }

/-- The slot `onSpellCheckEnabledChanged`: the argument is unused, the timer is
started. -/
def onSpellCheckEnabledChanged (h : SpellCheckHighlighter) (_enabled : Bool) :
    SpellCheckHighlighter :=
  { h with m_rehighlightTimer := h.m_rehighlightTimer.start }

/-- The expiry of the timer: only a running timer expires; it emits `timeout`,
which calls `rehighlight`, and a single-shot timer stops. -/
def timeout (h : SpellCheckHighlighter) : SpellCheckHighlighter :=
  if h.m_rehighlightTimer.active then
    { m_rehighlightTimer :=
        { h.m_rehighlightTimer with active := !h.m_rehighlightTimer.singleShot }
      rehighlights := h.rehighlights + 1 }
  else h

end SpellCheckHighlighter

/-- The two events of the debounce: the signal `enabledChanged` of the
coordinator and the expiry of the timer. -/
inductive DebounceEvent where
  | enabledChanged (enabled : Bool)
  | expiry

/-- The reaction of the highlighter to one event. -/
def SpellCheckHighlighter.step (h : SpellCheckHighlighter) : DebounceEvent → SpellCheckHighlighter
  | DebounceEvent.enabledChanged enabled => h.onSpellCheckEnabledChanged enabled
  | DebounceEvent.expiry => h.timeout

/-- The reaction of the highlighter to a sequence of events, in order. -/
def SpellCheckHighlighter.run (h : SpellCheckHighlighter) (events : List DebounceEvent) :
    SpellCheckHighlighter :=
  events.foldl SpellCheckHighlighter.step h

/-- Whether the last event of a sequence is an `enabledChanged`. -/
def endsWithEnabledChanged (events : List DebounceEvent) : Bool :=
  match events.getLast? with
  | some (DebounceEvent.enabledChanged _) => true
  | _ => false

/-! ## Themes (`Theme.cpp`) -/

/-- The struct `ThemeDescriptor`: the path of the theme file and whether the
theme is a custom one. -/
structure ThemeDescriptor where
  path : QString
  custom : Bool
  deriving DecidableEq

/-- The order `operator<` of `QString`, the key order of a `std::map` with
`QString` keys: lexicographic on the code units. -/
def QString.lt : QString → QString → Bool
  | [], [] => false
  | [], _ :: _ => true
  | _ :: _, [] => false
  | a :: as, b :: bs =>
    if a < b then true
    else if b < a then false
    else QString.lt as bs

/-- A `std::map<QString, ThemeDescriptor>`: its entries in key order. -/
abbrev ThemeMap := List (QString × ThemeDescriptor)

/-- The function `std::map::find`: the descriptor stored under `key`, `none`
for `end()`. -/
def ThemeMap.find : ThemeMap → QString → Option ThemeDescriptor
  | [], _ => none
  | (k, d) :: rest, key => if k = key then some d else ThemeMap.find rest key

/-- The function `std::map::emplace`: the entry is put at its place in the key
order, and nothing changes when the key is there already. -/
def ThemeMap.emplace : ThemeMap → QString → ThemeDescriptor → ThemeMap
  | [], key, d => [(key, d)]
  | (k, d0) :: rest, key, d =>
    if QString.lt key k then (key, d) :: (k, d0) :: rest
    else if QString.lt k key then (k, d0) :: ThemeMap.emplace rest key d
    else (k, d0) :: rest

/-- The constant `Theme::builtInThemes`, built from its initialiser list. -/
def builtInThemes : ThemeMap :=
  [((utf16 "White"), { path := (utf16 ":/themes/White.json"), custom := false }),
   ((utf16 "Light"), { path := (utf16 ":/themes/Light.json"), custom := false }),
   ((utf16 "Dark"), { path := (utf16 ":/themes/Dark.json"), custom := false }),
   ((utf16 "Black"), { path := (utf16 ":/themes/Black.json"), custom := false })].foldl
    (fun themes entry => ThemeMap.emplace themes entry.1 entry.2) []

/-- The constant `Theme::fallbackTheme`, that is `builtInThemes.at("Dark")`. -/
def fallbackTheme : ThemeDescriptor :=
  (ThemeMap.find builtInThemes (utf16 "Dark")).getD { path := [], custom := false }

/-- The expression `QString("Custom: %1").arg(name)`. -/
def customName (name : QString) : QString :=
  (utf16 "Custom: ") ++ name

/-- A `QFileInfo` of the themes directory, as far as `loadAvailableThemes`
reads it. -/
structure QFileInfo where
  fileName : QString
  isFile : Bool
  absoluteFilePath : QString

/-- The function `QFileInfo::baseName`: the file name up to its first dot. -/
def QFileInfo.baseName (info : QFileInfo) : QString :=
  info.fileName.takeWhile (fun c => c != (unit '.'))

/-- What `Theme.cpp` takes from outside the repository, for a type `Json` of
JSON objects and a type `Fields` holding the colours and style sheets of a
theme:

* `readAll path`: the bytes of the file at `path`, `none` when
  `QFile::open(QFile::ReadOnly)` fails;
* `fromJson bytes`: the object `QJsonDocument::fromJson` parses, `none` when
  the document is not an object;
* `entryInfoList`: the files of the themes directory, as `QDir::entryInfoList`
  lists them by name;
* `parseFrom`: the assignments of `Theme::parseFrom`, which reads the colours
  out of the object through `QJsonObject`, `QColor` and the resources. -/
structure ThemeEnv (Json Fields : Type) where
  readAll : QString → Option QString
  fromJson : QString → Option Json
  entryInfoList : List QFileInfo
  parseFrom : Json → Fields → Fields

/-- The function `loadTheme` of `Theme.cpp`. -/
def loadTheme {Json Fields : Type} (env : ThemeEnv Json Fields) (theme : ThemeDescriptor) :
    Option Json :=
  match env.readAll theme.path with
  | none => none
  | some bytes =>
    match env.fromJson bytes with
    | none => none
    | some object => some object

/-- The state of the `Theme` singleton: `fields` are the members `parseFrom`
assigns, `themeName` is the value of the setting, and `updatedInvocations`
counts the calls of `updated.invoke()` (a ghost counter). -/
structure Theme (Fields : Type) where
  fields : Fields
  themeName : QString
  availableThemes_ : ThemeMap
  updatedInvocations : Nat

namespace Theme

/-- The member `Theme::update`. The result holds, next to the state after the
call, whether the call fell back, that is took one of the two branches that log
"falling back to the fallback theme" and load `fallbackTheme`. -/
def update {Json Fields : Type} (env : ThemeEnv Json Fields) (t : Theme Fields) :
    Bool × Theme Fields :=
  let theme := ThemeMap.find t.availableThemes_ t.themeName
  let loaded : Bool × Option Json :=
    match theme with
    | none => (true, loadTheme env fallbackTheme)
    | some descriptor =>
      match loadTheme env descriptor with
      | some object => (false, some object)
      | none => (true, loadTheme env fallbackTheme)
  match loaded.2 with
  | none => (loaded.1, t)
  | some themeJSON =>
    (loaded.1,
      { t with fields := env.parseFrom themeJSON t.fields
               updatedInvocations := t.updatedInvocations + 1 })

/-- The member `Theme::availableThemeNames`. -/
def availableThemeNames {Fields : Type} (t : Theme Fields) : List QString :=
  t.availableThemes_.foldl
    (fun themeNames entry =>
      if entry.2.custom then themeNames ++ [customName entry.1] else themeNames ++ [entry.1])
    []

/-- The member `Theme::loadAvailableThemes`. -/
def loadAvailableThemes {Json Fields : Type} (env : ThemeEnv Json Fields) (t : Theme Fields) :
    Theme Fields :=
  { t with
    availableThemes_ :=
      env.entryInfoList.foldl
        (fun themes info =>
          if !info.isFile then themes
          else if !((utf16 ".json").isSuffixOf info.fileName) then themes
          else
            let themeDescriptor : ThemeDescriptor :=
              { path := info.absoluteFilePath, custom := true }
            match loadTheme env themeDescriptor with
            | none => themes
            | some _ => ThemeMap.emplace themes (customName info.baseName) themeDescriptor)
        builtInThemes }

end Theme

/-- An entry that fits on one line of the dictionary file: it is not empty,
holds no line break (line feed or carriage return), and neither starts nor ends
with white space. -/
def lineSafe (qt : QtTables) (entry : QString) : Bool :=
  !entry.isEmpty && entry.all (fun c => c != (unit '\n') && c != (unit '\r'))
    && !(entry.head?.any qt.isSpace) && !(entry.getLast?.any qt.isSpace)

/-! ## Test data -/

/-- A backend stub that rejects every word and offers no candidate. -/
def rejectAll : Backend where
  spell := fun _ => false
  suggest := fun _ => []

/-- A backend stub that rejects `helo` and accepts every other word, and offers
seven candidates for every word. -/
def stubBackend : Backend where
  spell := fun word => !decide (word = (utf16 "helo"))
  suggest := fun _ =>
    [utf16 "world", utf16 "word", utf16 "wold", utf16 "wrote",
     utf16 "would", utf16 "worlds", utf16 "whorled"]

/-- An enabled coordinator whose cache already holds `a ↦ false` and
`helo ↦ false`, in front of the stub backend. -/
def staleState : SpellChecker where
  m_enabled := true
  m_personalDictionary := []
  m_wordCache := [([unit 'a'], false), ((utf16 "helo"), false)]
  m_backend := some stubBackend
  dictFile := none
  dictFileWritable := true
  backendCalls := 2

/-- A theme environment for tests: JSON objects are stood for by their text
and the fields of a theme by the list of the objects parsed so far. The Dark
theme of the resources and the custom theme `/themes/X.json` load, the file
`/themes/broken.json` opens and does not parse, no other file opens. -/
def sampleThemeEnv : ThemeEnv QString (List QString) where
  readAll := fun path =>
    if path = (utf16 ":/themes/Dark.json") then some (utf16 "dark object")
    else if path = (utf16 "/themes/X.json") then some (utf16 "x object")
    else if path = (utf16 "/themes/broken.json") then some (utf16 "oops")
    else none
  fromJson := fun bytes => if bytes = (utf16 "oops") then none else some bytes
  entryInfoList :=
    [{ fileName := (utf16 "X.json"), isFile := true, absoluteFilePath := (utf16 "/themes/X.json") },
     { fileName := (utf16 "broken.json"), isFile := true,
       absoluteFilePath := (utf16 "/themes/broken.json") }]
  parseFrom := fun object fields => fields ++ [object]

/-- The same environment with no file that opens: the fallback theme fails to
load as well. -/
def emptyThemeEnv : ThemeEnv QString (List QString) where
  readAll := fun _ => none
  fromJson := fun bytes => some bytes
  entryInfoList := []
  parseFrom := fun object fields => fields ++ [object]

/-- A theme singleton before `loadAvailableThemes`, with the given setting. -/
def freshTheme (themeName : QString) : Theme (List QString) where
  fields := []
  themeName := themeName
  availableThemes_ := []
  updatedInvocations := 0

/-! ## Lemmas on the cache and on case-insensitive membership -/

theorem QHash.find_insert_self (h : QHash) (key : QString) (v : Bool) :
    QHash.find (QHash.insert h key v) key = some v := by
  simp [QHash.insert, QHash.find]

theorem QHash.find_filter_ne (h : QHash) (key other : QString) (hne : other ≠ key) :
    QHash.find (h.filter (fun entry => !decide (entry.1 = key))) other = QHash.find h other := by
  induction h with
  | nil => rfl
  | cons p rest ih =>
    obtain ⟨k, v⟩ := p
    by_cases hk : k = key
    · subst hk
      have hko : ¬ k = other := fun e => hne e.symm
      simp [List.filter_cons, QHash.find, hko, ih]
    · by_cases hko : k = other
      · subst hko
        simp [List.filter_cons, QHash.find, hne]
      · simp [List.filter_cons, QHash.find, hk, hko, ih]

theorem QHash.find_insert_ne (h : QHash) (key other : QString) (v : Bool) (hne : other ≠ key) :
    QHash.find (QHash.insert h key v) other = QHash.find h other := by
  have hko : ¬ key = other := fun e => hne e.symm
  simp [QHash.insert, QHash.find, hko, QHash.find_filter_ne h key other hne]

theorem equalsIgnoreCase_refl (qt : QtTables) (a : QString) : equalsIgnoreCase qt a a = true := by
  simp [equalsIgnoreCase]

theorem equalsIgnoreCase_symm (qt : QtTables) (a b : QString) :
    equalsIgnoreCase qt a b = equalsIgnoreCase qt b a := by
  unfold equalsIgnoreCase
  rw [Bool.eq_iff_iff]
  simp only [beq_iff_eq, Bool.and_eq_true]
  constructor <;> rintro ⟨h1, h2⟩ <;> exact ⟨h1.symm, h2.symm⟩

theorem equalsIgnoreCase_trans (qt : QtTables) (a b c : QString)
    (hab : equalsIgnoreCase qt a b = true) (hbc : equalsIgnoreCase qt b c = true) :
    equalsIgnoreCase qt a c = true := by
  simp only [equalsIgnoreCase, beq_iff_eq, Bool.and_eq_true] at *
  exact ⟨hab.1.trans hbc.1, hab.2.trans hbc.2⟩

theorem QStringList.contains_append (qt : QtTables) (l₁ l₂ : List QString) (str : QString) :
    QStringList.contains qt (l₁ ++ l₂) str
      = (QStringList.contains qt l₁ str || QStringList.contains qt l₂ str) := by
  simp [QStringList.contains, List.any_append]

theorem QStringList.contains_of_mem (qt : QtTables) (l : List QString) (entry str : QString)
    (hmem : entry ∈ l) (heq : equalsIgnoreCase qt entry str = true) :
    QStringList.contains qt l str = true := by
  simp only [QStringList.contains, List.any_eq_true]
  exact ⟨entry, hmem, heq⟩

/-! ## The five paths of `isWordCorrect` -/

namespace SpellChecker

theorem isWordCorrect_disabled (qt : QtTables) (s : SpellChecker) (word : QString)
    (hoff : s.m_enabled = false) : isWordCorrect qt s word = (true, s) := by
  simp [isWordCorrect, hoff]

theorem isWordCorrect_short (qt : QtTables) (s : SpellChecker) (word : QString)
    (hlen : word.length < 2) : isWordCorrect qt s word = (true, s) := by
  simp [isWordCorrect, hlen]

theorem not_isEmpty_of_two_le (word : QString) (hlen : 2 ≤ word.length) :
    word.isEmpty = false := by
  cases word with
  | nil => simp at hlen
  | cons c rest => rfl

theorem isWordCorrect_cached (qt : QtTables) (s : SpellChecker) (word : QString) (v : Bool)
    (hon : s.m_enabled = true) (hlen : 2 ≤ word.length)
    (hfind : QHash.find s.m_wordCache word = some v) : isWordCorrect qt s word = (v, s) := by
  have hlt : ¬ word.length < 2 := by omega
  simp [isWordCorrect, hon, hlt, not_isEmpty_of_two_le word hlen, QHash.contains, QHash.value,
    hfind]

theorem isWordCorrect_personal (qt : QtTables) (s : SpellChecker) (word : QString)
    (hon : s.m_enabled = true) (hlen : 2 ≤ word.length)
    (hfind : QHash.find s.m_wordCache word = none)
    (hdict : QStringList.contains qt s.m_personalDictionary word = true) :
    isWordCorrect qt s word
      = (true, { s with m_wordCache := QHash.insert s.m_wordCache word true }) := by
  have hlt : ¬ word.length < 2 := by omega
  simp [isWordCorrect, hon, hlt, not_isEmpty_of_two_le word hlen, QHash.contains, hfind, hdict]

theorem isWordCorrect_backend (qt : QtTables) (s : SpellChecker) (word : QString)
    (backend : Backend) (hon : s.m_enabled = true) (hlen : 2 ≤ word.length)
    (hfind : QHash.find s.m_wordCache word = none)
    (hdict : QStringList.contains qt s.m_personalDictionary word = false)
    (hback : s.m_backend = some backend) :
    isWordCorrect qt s word
      = (backend.spell word,
          { s with m_wordCache := QHash.insert s.m_wordCache word (backend.spell word)
                   backendCalls := s.backendCalls + 1 }) := by
  have hlt : ¬ word.length < 2 := by omega
  simp [isWordCorrect, hon, hlt, not_isEmpty_of_two_le word hlen, QHash.contains, hfind, hdict,
    hback]

theorem isWordCorrect_null (qt : QtTables) (s : SpellChecker) (word : QString)
    (hon : s.m_enabled = true) (hlen : 2 ≤ word.length)
    (hfind : QHash.find s.m_wordCache word = none)
    (hdict : QStringList.contains qt s.m_personalDictionary word = false)
    (hback : s.m_backend = none) :
    isWordCorrect qt s word
      = (false, { s with m_wordCache := QHash.insert s.m_wordCache word false }) := by
  have hlt : ¬ word.length < 2 := by omega
  simp [isWordCorrect, hon, hlt, not_isEmpty_of_two_le word hlen, QHash.contains, hfind, hdict,
    hback]

/-- A call on a word whose verdict has just been stored returns that verdict
and changes nothing. -/
theorem isWordCorrect_after_insert (qt : QtTables) (s : SpellChecker) (word : QString)
    (v : Bool) (calls : Nat) (hon : s.m_enabled = true) (hlen : 2 ≤ word.length) :
    isWordCorrect qt
        { s with m_wordCache := QHash.insert s.m_wordCache word v, backendCalls := calls } word
      = (v, { s with m_wordCache := QHash.insert s.m_wordCache word v, backendCalls := calls }) :=
  isWordCorrect_cached qt _ word v hon hlen (QHash.find_insert_self _ _ _)

/-- Whatever path is taken, the call leaves the enable flag, the dictionary and
the backend handle as they were. -/
theorem isWordCorrect_frame (qt : QtTables) (s : SpellChecker) (word : QString) :
    (isWordCorrect qt s word).2.m_enabled = s.m_enabled ∧
    (isWordCorrect qt s word).2.m_personalDictionary = s.m_personalDictionary ∧
    (isWordCorrect qt s word).2.m_backend = s.m_backend := by
  unfold isWordCorrect
  split
  · exact ⟨rfl, rfl, rfl⟩
  · split
    · exact ⟨rfl, rfl, rfl⟩
    · split
      · exact ⟨rfl, rfl, rfl⟩
      · split <;> exact ⟨rfl, rfl, rfl⟩

end SpellChecker

/-! ## `addToPersonalDictionary`, loading, and the cache invariant -/

namespace SpellChecker

theorem addToPersonalDictionary_present (qt : QtTables) (s : SpellChecker) (word : QString)
    (hdict : QStringList.contains qt s.m_personalDictionary word = true) :
    addToPersonalDictionary qt s word = s := by
  simp [addToPersonalDictionary, hdict]

theorem addToPersonalDictionary_absent (qt : QtTables) (s : SpellChecker) (word : QString)
    (hdict : QStringList.contains qt s.m_personalDictionary word = false) :
    (addToPersonalDictionary qt s word).m_enabled = s.m_enabled ∧
    (addToPersonalDictionary qt s word).m_personalDictionary = s.m_personalDictionary ++ [word] ∧
    (addToPersonalDictionary qt s word).m_wordCache = QHash.insert s.m_wordCache word true ∧
    (addToPersonalDictionary qt s word).m_backend = s.m_backend := by
  simp only [addToPersonalDictionary, hdict, savePersonalDictionary]
  cases s.dictFileWritable <;> simp

theorem appendLines_eq (qt : QtTables) (dict lines : List QString) :
    appendLines qt dict lines
      = dict ++ (lines.map (trimmed qt)).filter (fun word => !word.isEmpty) := by
  induction lines generalizing dict with
  | nil => simp [appendLines]
  | cons line rest ih =>
    cases hw : (trimmed qt line).isEmpty with
    | true => simp [appendLines, hw, ih]
    | false => simp [appendLines, hw, ih]

theorem construct_fields (qt : QtTables) (enableSpellCheck : Bool) (platform : Option Backend)
    (dictFile : Option QString) (dictFileWritable : Bool) :
    (construct qt enableSpellCheck platform dictFile dictFileWritable).m_enabled
      = enableSpellCheck ∧
    (construct qt enableSpellCheck platform dictFile dictFileWritable).m_wordCache = [] ∧
    (construct qt enableSpellCheck platform dictFile dictFileWritable).m_backend = platform := by
  cases dictFile <;> exact ⟨rfl, rfl, rfl⟩

theorem construct_dictionary (qt : QtTables) (enableSpellCheck : Bool)
    (platform : Option Backend) (text : QString) (dictFileWritable : Bool) :
    (construct qt enableSpellCheck platform (some text) dictFileWritable).m_personalDictionary
      = ((readLines text none).map (trimmed qt)).filter (fun word => !word.isEmpty) := by
  simp [construct, loadPersonalDictionary, appendLines_eq]

theorem cacheSound_isWordCorrect (qt : QtTables) (s : SpellChecker) (word : QString)
    (hs : CacheSound qt s) : CacheSound qt (isWordCorrect qt s word).2 := by
  cases hon : s.m_enabled with
  | false => rw [isWordCorrect_disabled qt s word hon]; exact hs
  | true =>
    by_cases hlen : word.length < 2
    · rw [isWordCorrect_short qt s word hlen]; exact hs
    · have hlen2 : 2 ≤ word.length := by omega
      cases hfind : QHash.find s.m_wordCache word with
      | some v => rw [isWordCorrect_cached qt s word v hon hlen2 hfind]; exact hs
      | none =>
        cases hdict : QStringList.contains qt s.m_personalDictionary word with
        | true =>
          rw [isWordCorrect_personal qt s word hon hlen2 hfind hdict]
          intro other hother
          by_cases heq : other = word
          · subst heq; exact Or.inl hdict
          · rw [show QHash.find (QHash.insert s.m_wordCache word true) other
                = QHash.find s.m_wordCache other from QHash.find_insert_ne _ _ _ _ heq] at hother
            exact hs other hother
        | false =>
          cases hback : s.m_backend with
          | some backend =>
            rw [isWordCorrect_backend qt s word backend hon hlen2 hfind hdict hback]
            intro other hother
            by_cases heq : other = word
            · subst heq
              rw [show QHash.find (QHash.insert s.m_wordCache other (backend.spell other)) other
                  = some (backend.spell other) from QHash.find_insert_self _ _ _] at hother
              exact Or.inr ⟨backend, hback, Option.some.inj hother⟩
            · rw [show QHash.find (QHash.insert s.m_wordCache word (backend.spell word)) other
                  = QHash.find s.m_wordCache other from QHash.find_insert_ne _ _ _ _ heq] at hother
              rcases hs other hother with h | ⟨b, hb, hv⟩
              · exact Or.inl h
              · exact Or.inr ⟨b, hb, hv⟩
          | none =>
            rw [isWordCorrect_null qt s word hon hlen2 hfind hdict hback]
            intro other hother
            by_cases heq : other = word
            · subst heq
              rw [show QHash.find (QHash.insert s.m_wordCache other false) other
                  = some false from QHash.find_insert_self _ _ _] at hother
              exact absurd (Option.some.inj hother) (by decide)
            · rw [show QHash.find (QHash.insert s.m_wordCache word false) other
                  = QHash.find s.m_wordCache other from QHash.find_insert_ne _ _ _ _ heq] at hother
              exact hs other hother

theorem cacheSound_addToPersonalDictionary (qt : QtTables) (s : SpellChecker) (word : QString)
    (hs : CacheSound qt s) : CacheSound qt (addToPersonalDictionary qt s word) := by
  cases hdict : QStringList.contains qt s.m_personalDictionary word with
  | true => rw [addToPersonalDictionary_present qt s word hdict]; exact hs
  | false =>
    obtain ⟨_, hd, hc, hb⟩ := addToPersonalDictionary_absent qt s word hdict
    intro other hother
    rw [hd, hb, QStringList.contains_append]
    rw [hc] at hother
    by_cases heq : other = word
    · subst heq
      left
      simp [QStringList.contains, equalsIgnoreCase_refl]
    · rw [QHash.find_insert_ne _ _ _ _ heq] at hother
      rcases hs other hother with h | h
      · left; simp [h]
      · exact Or.inr h

/-- The cache invariant holds in every reachable state. -/
theorem cacheSound_of_reachable (qt : QtTables) (s : SpellChecker) (hr : Reachable qt s) :
    CacheSound qt s := by
  induction hr with
  | construct enableSpellCheck platform dictFile dictFileWritable =>
    intro word hword
    rw [(construct_fields qt enableSpellCheck platform dictFile dictFileWritable).2.1] at hword
    simp [QHash.find] at hword
  | isWordCorrect s word _ ih => exact cacheSound_isWordCorrect qt s word ih
  | addToPersonalDictionary s word _ ih => exact cacheSound_addToPersonalDictionary qt s word ih
  | setEnabled s enabled _ ih => exact ih

end SpellChecker

/-! ## Saving and reloading the dictionary file -/

namespace SpellChecker

theorem foldl_write_eq (dict : List QString) (text : QString) :
    dict.foldl (fun text word => text ++ word ++ [unit '\n']) text
      = text ++ (dict.map (fun word => word ++ [unit '\n'])).flatten := by
  induction dict generalizing text with
  | nil => simp
  | cons word rest ih =>
    rw [List.foldl_cons, ih]
    simp [List.append_assoc]

theorem savePersonalDictionary_writable (s : SpellChecker) (hw : s.dictFileWritable = true) :
    savePersonalDictionary s
      = { s with
          dictFile := some (s.m_personalDictionary.map (fun word => word ++ [unit '\n'])).flatten } := by
  have h := foldl_write_eq s.m_personalDictionary []
  rw [List.nil_append] at h
  simp only [savePersonalDictionary, hw, if_true, h]

theorem readLines_line (entry rest : QString) (cur : Option QString)
    (hnl : ∀ c ∈ entry, c ≠ (unit '\n')) :
    readLines (entry ++ (unit '\n') :: rest) cur
      = (if (cur.getD [] ++ entry).getLast? = some (unit '\r') then (cur.getD [] ++ entry).dropLast
          else cur.getD [] ++ entry) :: readLines rest none := by
  induction entry generalizing cur with
  | nil => simp [readLines]
  | cons c tail ih =>
    have hc : c ≠ (unit '\n') := hnl c (List.mem_cons_self _ _)
    have htail : ∀ d ∈ tail, d ≠ (unit '\n') := fun d hd => hnl d (List.mem_cons_of_mem _ hd)
    rw [List.cons_append, readLines]
    simp only [hc, if_false]
    rw [ih _ htail]
    simp [List.append_assoc]

theorem getLast?_ne_of_all (entry : QString) (hcr : ∀ c ∈ entry, c ≠ (unit '\r')) :
    ¬ entry.getLast? = some (unit '\r') := by
  intro h
  obtain ⟨ys, hys⟩ := List.getLast?_eq_some_iff.mp h
  exact hcr (unit '\r') (by rw [hys]; simp) rfl

theorem readLines_written (dict : List QString)
    (hsafe : ∀ entry ∈ dict, ∀ c ∈ entry, c ≠ (unit '\n') ∧ c ≠ (unit '\r')) :
    readLines (dict.map (fun word => word ++ [unit '\n'])).flatten none = dict := by
  induction dict with
  | nil => rfl
  | cons entry rest ih =>
    have he := hsafe entry (List.mem_cons_self _ _)
    have hrest : ∀ e ∈ rest, ∀ c ∈ e, c ≠ (unit '\n') ∧ c ≠ (unit '\r') :=
      fun e hmem => hsafe e (List.mem_cons_of_mem _ hmem)
    have hline := readLines_line entry (rest.map (fun word => word ++ [unit '\n'])).flatten none
      (fun c hc => (he c hc).1)
    have hlast := getLast?_ne_of_all entry (fun c hc => (he c hc).2)
    simp only [List.map_cons, List.flatten_cons, List.append_assoc, List.singleton_append]
    rw [hline, ih hrest]
    simp [hlast]

theorem trimmed_of_lineSafe (qt : QtTables) (entry : QString)
    (hsafe : lineSafe qt entry = true) : trimmed qt entry = entry := by
  simp only [lineSafe, Bool.and_eq_true, Bool.not_eq_true'] at hsafe
  obtain ⟨⟨⟨_, _⟩, hhead⟩, hlast⟩ := hsafe
  have h1 : entry.dropWhile qt.isSpace = entry := by
    cases entry with
    | nil => rfl
    | cons c tail =>
      have hc : qt.isSpace c = false := by simpa using hhead
      simp [List.dropWhile_cons, hc]
  have h2 : entry.reverse.dropWhile qt.isSpace = entry.reverse := by
    cases hrev : entry.reverse with
    | nil => rfl
    | cons c tail =>
      have hl : entry.getLast? = some c := by
        rw [← List.head?_reverse, hrev]; rfl
      have hc : qt.isSpace c = false := by simpa [hl] using hlast
      simp [List.dropWhile_cons, hc]
  simp [trimmed, h1, h2]

theorem load_written (qt : QtTables) (dict : List QString)
    (hsafe : ∀ entry ∈ dict, lineSafe qt entry = true) :
    appendLines qt [] (readLines (dict.map (fun word => word ++ [unit '\n'])).flatten none)
      = dict := by
  have hchars : ∀ entry ∈ dict, ∀ c ∈ entry, c ≠ (unit '\n') ∧ c ≠ (unit '\r') := by
    intro entry hmem c hc
    have h := hsafe entry hmem
    simp only [lineSafe, Bool.and_eq_true, List.all_eq_true, bne_iff_ne, ne_eq] at h
    exact h.1.1.2 c hc
  rw [readLines_written dict hchars, appendLines_eq, List.nil_append]
  have hmap : dict.map (trimmed qt) = dict := by
    conv_rhs => rw [← List.map_id dict]
    apply List.map_congr_left
    intro entry hmem
    exact trimmed_of_lineSafe qt entry (hsafe entry hmem)
  rw [hmap, List.filter_eq_self]
  intro entry hmem
  have h := hsafe entry hmem
  simp only [lineSafe, Bool.and_eq_true] at h
  exact h.1.1.1

end SpellChecker

/-! ## The verdict of a word does not depend on earlier queries -/

namespace SpellChecker

/-- A call either leaves the cache alone or sets the entry of its word. -/
theorem isWordCorrect_cache (qt : QtTables) (s : SpellChecker) (word : QString) :
    (isWordCorrect qt s word).2.m_wordCache = s.m_wordCache ∨
    ∃ v, (isWordCorrect qt s word).2.m_wordCache = QHash.insert s.m_wordCache word v := by
  unfold isWordCorrect
  split
  · exact Or.inl rfl
  · split
    · exact Or.inl rfl
    · split
      · exact Or.inr ⟨true, rfl⟩
      · split
        · exact Or.inr ⟨_, rfl⟩
        · exact Or.inr ⟨false, rfl⟩

/-- The cache entries of the other words are untouched by a call. -/
theorem isWordCorrect_find_other (qt : QtTables) (s : SpellChecker) (word other : QString)
    (hne : other ≠ word) :
    QHash.find (isWordCorrect qt s word).2.m_wordCache other = QHash.find s.m_wordCache other := by
  rcases isWordCorrect_cache qt s word with h | ⟨v, h⟩
  · rw [h]
  · rw [h, QHash.find_insert_ne _ _ _ _ hne]

end SpellChecker

/-! ## What `isWordCorrect` leaves alone -/

namespace SpellChecker

/-- A call on a word that has a cache entry changes nothing at all. -/
theorem isWordCorrect_state_of_cached (qt : QtTables) (s : SpellChecker) (word : QString)
    (v : Bool) (hfind : QHash.find s.m_wordCache word = some v) :
    (isWordCorrect qt s word).2 = s := by
  unfold isWordCorrect
  simp only [QHash.contains, hfind, Option.isSome_some, if_true]
  split <;> rfl

/-- The dictionary file and its access are not touched by a call. -/
theorem isWordCorrect_frame_file (qt : QtTables) (s : SpellChecker) (word : QString) :
    (isWordCorrect qt s word).2.dictFile = s.dictFile ∧
    (isWordCorrect qt s word).2.dictFileWritable = s.dictFileWritable := by
  unfold isWordCorrect
  split
  · exact ⟨rfl, rfl⟩
  · split
    · exact ⟨rfl, rfl⟩
    · split
      · exact ⟨rfl, rfl⟩
      · split <;> exact ⟨rfl, rfl⟩

end SpellChecker

/-! ## The matches of the word pattern -/

namespace SpellCheckHighlighter

theorem run_append (h : SpellCheckHighlighter) (first second : List DebounceEvent) :
    h.run (first ++ second) = (h.run first).run second := by
  simp [run, List.foldl_append]

theorem run_concat (h : SpellCheckHighlighter) (events : List DebounceEvent)
    (e : DebounceEvent) : h.run (events ++ [e]) = (h.run events).step e := by
  simp [run, List.foldl_append]

theorem endsWithEnabledChanged_changed (events : List DebounceEvent) (flag : Bool) :
    endsWithEnabledChanged (events ++ [DebounceEvent.enabledChanged flag]) = true := by
  simp [endsWithEnabledChanged]

theorem endsWithEnabledChanged_expiry (events : List DebounceEvent) :
    endsWithEnabledChanged (events ++ [DebounceEvent.expiry]) = false := by
  simp [endsWithEnabledChanged]

/-- After any sequence of events the timer is the single-shot timer of 100 ms,
and it runs exactly when the last event was an `enabledChanged`. -/
theorem timer_after (events : List DebounceEvent) :
    (construct.run events).m_rehighlightTimer
      = { singleShot := true, interval := 100, active := endsWithEnabledChanged events } := by
  induction events using List.reverseRecOn with
  | nil => rfl
  | append_singleton events e ih =>
    rw [run_concat]
    cases e with
    | enabledChanged flag =>
      rw [endsWithEnabledChanged_changed]
      simp [step, onSpellCheckEnabledChanged, QTimer.start, ih]
    | expiry =>
      rw [endsWithEnabledChanged_expiry]
      simp only [step, timeout, ih]
      split <;> simp_all

/-- An expiry counts one rehighlight when the timer runs and none otherwise. -/
theorem rehighlights_expiry (events : List DebounceEvent) :
    (construct.run (events ++ [DebounceEvent.expiry])).rehighlights
      = (construct.run events).rehighlights
        + (if endsWithEnabledChanged events then 1 else 0) := by
  rw [run_concat]
  have ht := timer_after events
  simp only [step, timeout, ht]
  split <;> simp_all

/-- An `enabledChanged` counts no rehighlight. -/
theorem rehighlights_changes (h : SpellCheckHighlighter) (flags : List Bool) :
    (h.run (flags.map DebounceEvent.enabledChanged)).rehighlights = h.rehighlights := by
  induction flags generalizing h with
  | nil => rfl
  | cons flag rest ih =>
    simp only [List.map_cons, run, List.foldl_cons]
    exact ih (h.step (DebounceEvent.enabledChanged flag))

theorem endsWithEnabledChanged_burst (events : List DebounceEvent) (flags : List Bool)
    (hn : 1 ≤ flags.length) :
    endsWithEnabledChanged (events ++ flags.map DebounceEvent.enabledChanged) = true := by
  induction flags using List.reverseRecOn with
  | nil => simp at hn
  | append_singleton rest flag _ =>
    rw [List.map_append, List.map_singleton, ← List.append_assoc]
    exact endsWithEnabledChanged_changed _ flag

theorem endsWithEnabledChanged_iff (events : List DebounceEvent) :
    endsWithEnabledChanged events = true
      ↔ ∃ before flag, events = before ++ [DebounceEvent.enabledChanged flag] := by
  induction events using List.reverseRecOn with
  | nil => simp [endsWithEnabledChanged]
  | append_singleton rest e _ =>
    cases e with
    | enabledChanged flag =>
      rw [endsWithEnabledChanged_changed]
      exact ⟨fun _ => ⟨rest, flag, rfl⟩, fun _ => rfl⟩
    | expiry =>
      rw [endsWithEnabledChanged_expiry]
      refine ⟨fun h => absurd h (by decide), ?_⟩
      rintro ⟨before, flag, h⟩
      have := List.append_inj_right' h rfl
      simp at this

end SpellCheckHighlighter

/-! ## Lengths count code units -/

/-- The character U+1F600 is the two code units D83D DE00. As a word it has
length 2, passes the length guard of `isWordCorrect` and gets the verdict of
the backend, here false. -/
theorem surrogate_pair_passes_length_guard :
    utf16 (String.singleton (Char.ofNat 128512)) = [55357, 56832] ∧
    ([55357, 56832] : QString).length = 2 ∧
    (SpellChecker.isWordCorrect asciiTables
      (SpellChecker.construct asciiTables true (some rejectAll) none true)
      [55357, 56832]).1 = false := by
  decide

/-! ## The claims of the specification -/

open SpellChecker

/-- C1, evaluated on the code: the specification asks that a coordinator whose
native backend is unavailable (null handle) reports every word correct. On a
freshly constructed, enabled coordinator with a null handle and no dictionary
file, `isWordCorrect` answers false for `hello`, and caches that verdict. -/
theorem C1_null_backend_reports_misspelled :
    (construct asciiTables true none none true).m_backend.isNone = true ∧
    (isWordCorrect asciiTables (construct asciiTables true none none true)
      (utf16 "hello")).1 = false ∧
    QHash.find (isWordCorrect asciiTables (construct asciiTables true none none true)
      (utf16 "hello")).2.m_wordCache (utf16 "hello") = some false := by
  decide

/-- C2, evaluated on the code: the specification asks that a word equal to a
personal-dictionary entry ignoring case is always reported correct, whatever
the cache holds. After `isWordCorrect "HELO"` (rejected by the backend) and
`addToPersonalDictionary "helo"`, the state is reachable and enabled, `HELO`
equals the entry `helo` ignoring case, and `isWordCorrect "HELO"` still
answers false, from the stale cache entry. -/
theorem C2_stale_case_variant_in_cache :
    Reachable asciiTables
      (addToPersonalDictionary asciiTables
        (isWordCorrect asciiTables (construct asciiTables true (some rejectAll) none true)
          (utf16 "HELO")).2 (utf16 "helo")) ∧
    (addToPersonalDictionary asciiTables
        (isWordCorrect asciiTables (construct asciiTables true (some rejectAll) none true)
          (utf16 "HELO")).2 (utf16 "helo")).m_enabled = true ∧
    QStringList.contains asciiTables
      (addToPersonalDictionary asciiTables
        (isWordCorrect asciiTables (construct asciiTables true (some rejectAll) none true)
          (utf16 "HELO")).2 (utf16 "helo")).m_personalDictionary
      (utf16 "HELO") = true ∧
    (isWordCorrect asciiTables
      (addToPersonalDictionary asciiTables
        (isWordCorrect asciiTables (construct asciiTables true (some rejectAll) none true)
          (utf16 "HELO")).2 (utf16 "helo"))
      (utf16 "HELO")).1 = false :=
  ⟨Reachable.addToPersonalDictionary _ _
      (Reachable.isWordCorrect _ _ (Reachable.construct true (some rejectAll) none true)),
    by decide, by decide, by decide⟩

/-- C3: a word of length less than 2, the empty word included, is reported
correct in every state: whatever the enable flag, the cache, the personal
dictionary and the backend. The length is `QString::length`, the number of
UTF-16 code units of the word: a word made of one character outside the Basic
Multilingual Plane has length 2 and is not among these words. -/
theorem C3_short_word_correct (qt : QtTables) (s : SpellChecker) (word : QString)
    (hlen : word.length < 2) : (isWordCorrect qt s word).1 = true := by
  rw [isWordCorrect_short qt s word hlen]

theorem C3_short_word_correct_witness :
    ([unit 'a'] : QString).length < 2 ∧ QHash.find staleState.m_wordCache [unit 'a'] = some false ∧
      (isWordCorrect asciiTables staleState [unit 'a']).1 = true :=
  ⟨by decide, by decide, C3_short_word_correct asciiTables staleState [unit 'a'] (by decide)⟩

/-- C4: with the coordinator enabled and the backend available, a word of
length at least 2 that has no cache entry and equals no personal-dictionary
entry ignoring case gets exactly the verdict of the backend, and afterwards the
cache maps the word to that verdict. -/
theorem C4_uncached_word_gets_backend_verdict (qt : QtTables) (s : SpellChecker)
    (backend : Backend) (word : QString)
    (hon : s.m_enabled = true) (hback : s.m_backend = some backend)
    (hlen : 2 ≤ word.length) (hfind : QHash.find s.m_wordCache word = none)
    (hdict : QStringList.contains qt s.m_personalDictionary word = false) :
    (isWordCorrect qt s word).1 = backend.spell word ∧
    QHash.find (isWordCorrect qt s word).2.m_wordCache word = some (backend.spell word) := by
  rw [isWordCorrect_backend qt s word backend hon hlen hfind hdict hback]
  exact ⟨rfl, QHash.find_insert_self _ _ _⟩

theorem C4_uncached_word_gets_backend_verdict_witness :
    stubBackend.spell (utf16 "hello") = true ∧
    (isWordCorrect asciiTables staleState (utf16 "hello")).1
      = stubBackend.spell (utf16 "hello") ∧
    QHash.find (isWordCorrect asciiTables staleState (utf16 "hello")).2.m_wordCache
      (utf16 "hello") = some (stubBackend.spell (utf16 "hello")) :=
  ⟨by decide,
    C4_uncached_word_gets_backend_verdict asciiTables staleState stubBackend
      (utf16 "hello") rfl rfl (by decide) (by decide) (by decide)⟩

/-- C5: in every state and for every word, a second `isWordCorrect` call right
after a first one on the same word returns the same verdict and does not ask
the backend: the count of backend calls is the one left by the first call. -/
theorem C5_second_call_same_verdict_no_backend (qt : QtTables) (s : SpellChecker)
    (word : QString) :
    (isWordCorrect qt (isWordCorrect qt s word).2 word).1 = (isWordCorrect qt s word).1 ∧
    (isWordCorrect qt (isWordCorrect qt s word).2 word).2.backendCalls
      = (isWordCorrect qt s word).2.backendCalls := by
  cases hon : s.m_enabled with
  | false => simp [isWordCorrect_disabled qt s word hon]
  | true =>
    by_cases hlen : word.length < 2
    · simp [isWordCorrect_short qt s word hlen]
    · have hlen2 : 2 ≤ word.length := by omega
      cases hfind : QHash.find s.m_wordCache word with
      | some v => simp [isWordCorrect_cached qt s word v hon hlen2 hfind]
      | none =>
        cases hdict : QStringList.contains qt s.m_personalDictionary word with
        | true =>
          rw [isWordCorrect_personal qt s word hon hlen2 hfind hdict]
          have h2 := isWordCorrect_after_insert qt s word true s.backendCalls hon hlen2
          exact ⟨congrArg Prod.fst h2, congrArg (fun r => r.2.backendCalls) h2⟩
        | false =>
          cases hback : s.m_backend with
          | some backend =>
            rw [isWordCorrect_backend qt s word backend hon hlen2 hfind hdict hback]
            have h2 := isWordCorrect_after_insert qt s word (backend.spell word)
              (s.backendCalls + 1) hon hlen2
            exact ⟨congrArg Prod.fst h2, congrArg (fun r => r.2.backendCalls) h2⟩
          | none =>
            rw [isWordCorrect_null qt s word hon hlen2 hfind hdict hback]
            have h2 := isWordCorrect_after_insert qt s word false s.backendCalls hon hlen2
            exact ⟨congrArg Prod.fst h2, congrArg (fun r => r.2.backendCalls) h2⟩

/-- C6: when the coordinator is disabled, every word is reported correct,
whatever the cache holds, a cached false verdict for the word included. -/
theorem C6_disabled_reports_correct (qt : QtTables) (s : SpellChecker) (word : QString)
    (hoff : s.m_enabled = false) : (isWordCorrect qt s word).1 = true := by
  rw [isWordCorrect_disabled qt s word hoff]

theorem C6_disabled_reports_correct_witness :
    QHash.find (setEnabled staleState false).m_wordCache (utf16 "helo") = some false ∧
    (isWordCorrect asciiTables (setEnabled staleState false) (utf16 "helo")).1 = true :=
  ⟨by decide,
    C6_disabled_reports_correct asciiTables (setEnabled staleState false) (utf16 "helo") rfl⟩

/-- C7: in every state the coordinator can be in (after construction and any
calls of `isWordCorrect`, `addToPersonalDictionary` and `setEnabled`) with the
coordinator enabled, for a word of length at least 2 that the backend reports
misspelled and that equals no personal-dictionary entry ignoring case,
`isWordCorrect` returns false, and
after `addToPersonalDictionary` of that word the next `isWordCorrect` returns
true: the addition overrides the false verdict cached for the word. -/
theorem C7_addition_overrides_cached_false (qt : QtTables) (s : SpellChecker)
    (backend : Backend) (word : QString) (hr : Reachable qt s)
    (hon : s.m_enabled = true) (hlen : 2 ≤ word.length)
    (hback : s.m_backend = some backend) (hrej : backend.spell word = false)
    (hdict : QStringList.contains qt s.m_personalDictionary word = false) :
    (isWordCorrect qt s word).1 = false ∧
    (isWordCorrect qt (addToPersonalDictionary qt (isWordCorrect qt s word).2 word) word).1
      = true := by
  constructor
  · cases hfind : QHash.find s.m_wordCache word with
    | none =>
      rw [isWordCorrect_backend qt s word backend hon hlen hfind hdict hback]
      exact hrej
    | some v =>
      rw [isWordCorrect_cached qt s word v hon hlen hfind]
      cases v with
      | false => rfl
      | true =>
        rcases cacheSound_of_reachable qt s hr word hfind with h | ⟨b, hb, hv⟩
        · rw [hdict] at h; exact absurd h (by decide)
        · rw [hback] at hb
          cases hb
          rw [hrej] at hv; exact absurd hv (by decide)
  · obtain ⟨hen1, hd1, _⟩ := isWordCorrect_frame qt s word
    have hdict1 : QStringList.contains qt
        (isWordCorrect qt s word).2.m_personalDictionary word = false := by rw [hd1]; exact hdict
    obtain ⟨hen2, _, hc2, _⟩ :=
      addToPersonalDictionary_absent qt (isWordCorrect qt s word).2 word hdict1
    have hfind2 : QHash.find
        (addToPersonalDictionary qt (isWordCorrect qt s word).2 word).m_wordCache word
          = some true := by rw [hc2]; exact QHash.find_insert_self _ _ _
    rw [isWordCorrect_cached qt _ word true (by rw [hen2, hen1]; exact hon) hlen hfind2]

theorem C7_addition_overrides_cached_false_witness :
    (isWordCorrect asciiTables (construct asciiTables true (some stubBackend) none true)
      (utf16 "helo")).1 = false ∧
    (isWordCorrect asciiTables
      (addToPersonalDictionary asciiTables
        (isWordCorrect asciiTables (construct asciiTables true (some stubBackend) none true)
          (utf16 "helo")).2 (utf16 "helo"))
      (utf16 "helo")).1 = true :=
  C7_addition_overrides_cached_false asciiTables
    (construct asciiTables true (some stubBackend) none true) stubBackend (utf16 "helo")
    (Reachable.construct true (some stubBackend) none true) rfl (by decide) rfl (by decide)
    (by decide)

/-- C8: `addToPersonalDictionary` is idempotent up to letter case. When the
dictionary has no entry equal to `w` ignoring case and `w2` is a case variant
of `w`, adding `w` and then `w2` leaves the state of the first addition alone:
the dictionary is the old one followed by `w`, and `w` is its only entry equal
to `w` ignoring case. -/
theorem C8_add_idempotent_up_to_case (qt : QtTables) (s : SpellChecker) (w w2 : QString)
    (hdict : QStringList.contains qt s.m_personalDictionary w = false)
    (hvar : equalsIgnoreCase qt w w2 = true) :
    addToPersonalDictionary qt (addToPersonalDictionary qt s w) w2
      = addToPersonalDictionary qt s w ∧
    (addToPersonalDictionary qt (addToPersonalDictionary qt s w) w2).m_personalDictionary
      = s.m_personalDictionary ++ [w] ∧
    (addToPersonalDictionary qt (addToPersonalDictionary qt s w) w2).m_personalDictionary.filter
      (fun entry => equalsIgnoreCase qt entry w) = [w] := by
  obtain ⟨_, hd, _, _⟩ := addToPersonalDictionary_absent qt s w hdict
  have hpresent : QStringList.contains qt
      (addToPersonalDictionary qt s w).m_personalDictionary w2 = true := by
    rw [hd]
    exact QStringList.contains_of_mem qt _ w w2 (by simp) hvar
  have hagain := addToPersonalDictionary_present qt (addToPersonalDictionary qt s w) w2 hpresent
  refine ⟨hagain, by rw [hagain, hd], ?_⟩
  rw [hagain, hd, List.filter_append]
  have hnone : s.m_personalDictionary.filter (fun entry => equalsIgnoreCase qt entry w) = [] := by
    rw [List.filter_eq_nil_iff]
    intro entry hmem hentry
    rw [QStringList.contains_of_mem qt _ entry w hmem hentry] at hdict
    exact absurd hdict (by decide)
  simp [hnone, equalsIgnoreCase_refl]

theorem C8_add_idempotent_up_to_case_witness :
    addToPersonalDictionary asciiTables
        (addToPersonalDictionary asciiTables staleState (utf16 "helo")) (utf16 "HeLo")
      = addToPersonalDictionary asciiTables staleState (utf16 "helo") ∧
    (addToPersonalDictionary asciiTables
        (addToPersonalDictionary asciiTables staleState (utf16 "helo"))
        (utf16 "HeLo")).m_personalDictionary
      = staleState.m_personalDictionary ++ [utf16 "helo"] ∧
    (addToPersonalDictionary asciiTables
        (addToPersonalDictionary asciiTables staleState (utf16 "helo"))
        (utf16 "HeLo")).m_personalDictionary.filter
      (fun entry => equalsIgnoreCase asciiTables entry (utf16 "helo"))
        = [utf16 "helo"] :=
  C8_add_idempotent_up_to_case asciiTables staleState (utf16 "helo") (utf16 "HeLo")
    (by decide) (by decide)

/-- C9: for every text of the personal-dictionary file, after construction
every line of the file that is not blank is, trimmed of surrounding white
space, an entry of the personal dictionary, and the freshly constructed,
enabled coordinator reports every letter-casing of such an entry correct,
whatever the backend is and answers. -/
theorem C9_loaded_words_are_correct (qt : QtTables) (platform : Option Backend)
    (text : QString) (dictFileWritable : Bool) (line : QString)
    (hline : line ∈ readLines text none) (hblank : trimmed qt line ≠ []) :
    trimmed qt line ∈ (construct qt true platform (some text) dictFileWritable).m_personalDictionary ∧
    ∀ word, equalsIgnoreCase qt word (trimmed qt line) = true →
      (isWordCorrect qt (construct qt true platform (some text) dictFileWritable) word).1
        = true := by
  have hmem : trimmed qt line
      ∈ (construct qt true platform (some text) dictFileWritable).m_personalDictionary := by
    rw [construct_dictionary, List.mem_filter]
    refine ⟨List.mem_map_of_mem _ hline, ?_⟩
    cases htrim : trimmed qt line with
    | nil => exact absurd htrim hblank
    | cons c rest => rfl
  refine ⟨hmem, ?_⟩
  intro word hword
  obtain ⟨hen, hcache, _⟩ := construct_fields qt true platform (some text) dictFileWritable
  by_cases hlen : word.length < 2
  · rw [isWordCorrect_short qt _ word hlen]
  · have hfind : QHash.find
        (construct qt true platform (some text) dictFileWritable).m_wordCache word = none := by
      rw [hcache]; rfl
    have hword2 : equalsIgnoreCase qt (trimmed qt line) word = true := by
      rw [equalsIgnoreCase_symm]; exact hword
    rw [isWordCorrect_personal qt _ word hen (by omega) hfind
      (QStringList.contains_of_mem qt _ _ word hmem hword2)]

theorem C9_loaded_words_are_correct_witness :
    rejectAll.spell (utf16 "CHAT") = false ∧
    (isWordCorrect asciiTables
      (construct asciiTables true (some rejectAll) (some (utf16 " chat\r\n")) true)
      (utf16 "CHAT")).1 = true :=
  ⟨rfl,
    (C9_loaded_words_are_correct asciiTables (some rejectAll)
      (utf16 " chat\r\n") true (utf16 " chat")
      (by decide) (by decide)).2 (utf16 "CHAT") (by decide)⟩

/-- C10: when the backend returns `n` candidates for a word, `suggestions` is
the first `min n 5` of them in the order of the backend: its length is
`min n 5`, never more than 5, and exactly 5 when `n` is 5 or more. -/
theorem C10_suggestions_first_five (s : SpellChecker) (backend : Backend) (word : QString)
    (hback : s.m_backend = some backend) :
    suggestions s word = (backend.suggest word).take (min (backend.suggest word).length 5) ∧
    (suggestions s word).length = min (backend.suggest word).length 5 ∧
    (suggestions s word).length ≤ 5 ∧
    (5 ≤ (backend.suggest word).length → (suggestions s word).length = 5) := by
  have hsug : suggestions s word = (backend.suggest word).take 5 := by
    simp [suggestions, hback, mid]
  have htake : (backend.suggest word).take (min (backend.suggest word).length 5)
      = (backend.suggest word).take 5 := by
    rw [List.take_eq_take]; omega
  rw [htake, hsug, List.length_take]
  refine ⟨rfl, ?_, ?_, ?_⟩ <;> omega

theorem C10_suggestions_first_five_witness :
    (stubBackend.suggest (utf16 "wrold")).length = 7 ∧
    (suggestions staleState (utf16 "wrold")).length = 5 ∧
    suggestions staleState (utf16 "wrold")
      = [utf16 "world", utf16 "word", utf16 "wold",
         utf16 "wrote", utf16 "would"] :=
  ⟨rfl,
    (C10_suggestions_first_five staleState stubBackend (utf16 "wrold") rfl).2.2.2
      (by decide),
    by decide⟩

/-- C11 as stated fails on the code: a disabled coordinator in front of an
available backend still returns candidates. The state is `staleState` with the
enable flag cleared; `suggestions "wrold"` is not the empty sequence. -/
theorem C11_disabled_still_suggests :
    ({ staleState with m_enabled := false } : SpellChecker).m_enabled = false ∧
    suggestions { staleState with m_enabled := false } (utf16 "wrold") ≠ [] := by
  decide

/-- C11, amended: for every word, `suggestions` returns the empty sequence when
the backend is unavailable, whatever the enable flag; and `suggestions` does
not depend on the enable flag: with any value of the flag it returns what it
returns in the given state. -/
theorem C11_suggestions_empty_without_backend (s : SpellChecker) (word : QString) :
    (s.m_backend = none → suggestions s word = []) ∧
    ∀ enabled : Bool, suggestions { s with m_enabled := enabled } word = suggestions s word := by
  refine ⟨?_, fun _ => rfl⟩
  intro hnull
  simp [suggestions, hnull, mid]

theorem C11_suggestions_empty_without_backend_witness :
    suggestions { staleState with m_backend := none } (utf16 "wrold") = [] :=
  (C11_suggestions_empty_without_backend { staleState with m_backend := none }
    (utf16 "wrold")).1 rfl


/-- C12, evaluated on the code: the specification asks that the name after an
`@` is neither checked nor underlined. In the text `@helo` the pattern matches
`helo` at offset 1, without the `@`, so the test `word.startsWith("@")` does
not hold: `helo`, which the coordinator reports misspelled, is passed to
`isWordCorrect` and the span (1, 4) is underlined. -/
theorem C12_mention_name_is_checked :
    (isWordCorrect asciiTables (construct asciiTables true (some stubBackend) none true)
      (utf16 "helo")).1 = false ∧
    (highlightBlock asciiTables (construct asciiTables true (some stubBackend) none true)
      (utf16 "@helo")).formats = [(1, 4)] ∧
    (highlightBlock asciiTables (construct asciiTables true (some stubBackend) none true)
      (utf16 "@helo")).queries = [utf16 "helo"] := by
  decide

/-- C13: `addToPersonalDictionary` is a no-op when the dictionary already holds
an entry equal to the word ignoring case: the dictionary list, the cache and
the dictionary file are what they were, and so is the whole state. -/
theorem C13_add_present_is_noop (qt : QtTables) (s : SpellChecker) (word : QString)
    (hdict : QStringList.contains qt s.m_personalDictionary word = true) :
    (addToPersonalDictionary qt s word).m_personalDictionary = s.m_personalDictionary ∧
    (addToPersonalDictionary qt s word).m_wordCache = s.m_wordCache ∧
    (addToPersonalDictionary qt s word).dictFile = s.dictFile ∧
    addToPersonalDictionary qt s word = s := by
  rw [addToPersonalDictionary_present qt s word hdict]
  exact ⟨rfl, rfl, rfl, rfl⟩

theorem C13_add_present_is_noop_witness :
    addToPersonalDictionary asciiTables
        { staleState with m_personalDictionary := [utf16 "helo"] } (utf16 "HELO")
      = { staleState with m_personalDictionary := [utf16 "helo"] } :=
  (C13_add_present_is_noop asciiTables
    { staleState with m_personalDictionary := [utf16 "helo"] } (utf16 "HELO")
    (by decide)).2.2.2

/-- C14: when the word equals no dictionary entry ignoring case,
`addToPersonalDictionary` appends it at the end of the dictionary, the earlier
entries kept in their order; when the file can be opened for writing, the file
becomes every entry followed by a newline, in dictionary order (and it is left
alone when it cannot); the cache entry of the word becomes true and every other
cache entry is unchanged. -/
theorem C14_add_absent_appends_saves_caches (qt : QtTables) (s : SpellChecker)
    (word : QString) (hdict : QStringList.contains qt s.m_personalDictionary word = false) :
    (addToPersonalDictionary qt s word).m_personalDictionary
      = s.m_personalDictionary ++ [word] ∧
    (s.dictFileWritable = true → (addToPersonalDictionary qt s word).dictFile
      = some ((s.m_personalDictionary ++ [word]).map (fun entry => entry ++ [unit '\n'])).flatten) ∧
    (s.dictFileWritable = false → (addToPersonalDictionary qt s word).dictFile = s.dictFile) ∧
    QHash.find (addToPersonalDictionary qt s word).m_wordCache word = some true ∧
    ∀ other, other ≠ word →
      QHash.find (addToPersonalDictionary qt s word).m_wordCache other
        = QHash.find s.m_wordCache other := by
  obtain ⟨_, hd, hc, _⟩ := addToPersonalDictionary_absent qt s word hdict
  refine ⟨hd, ?_, ?_, ?_, ?_⟩
  · intro hw
    have hsave := savePersonalDictionary_writable
      { s with m_personalDictionary := s.m_personalDictionary ++ [word] } hw
    simp only [addToPersonalDictionary, hdict, Bool.not_false, if_true, hsave]
  · intro hw
    simp [addToPersonalDictionary, hdict, savePersonalDictionary, hw]
  · rw [hc]; exact QHash.find_insert_self _ _ _
  · intro other hne
    rw [hc]; exact QHash.find_insert_ne _ _ _ _ hne

theorem C14_add_absent_appends_saves_caches_witness :
    (addToPersonalDictionary asciiTables
        { staleState with m_personalDictionary := [utf16 "chat"] }
        (utf16 "helo")).dictFile
      = some (utf16 "chat\nhelo\n") :=
  (C14_add_absent_appends_saves_caches asciiTables
    { staleState with m_personalDictionary := [utf16 "chat"] } (utf16 "helo")
    (by decide)).2.1 rfl

/-- C15: while the coordinator is disabled, `highlightBlock` on any text formats
no span and asks no `isWordCorrect`, and leaves the coordinator, its cache
included, as it was; and disabling itself keeps the cache: every entry cached
before `setEnabled(false)` is there afterwards with the same verdict. -/
theorem C15_disabled_highlights_nothing (qt : QtTables) (s : SpellChecker) (text : QString)
    (hoff : s.m_enabled = false) :
    (highlightBlock qt s text).formats = [] ∧
    (highlightBlock qt s text).queries = [] ∧
    (highlightBlock qt s text).checker = s ∧
    ∀ before : SpellChecker, (setEnabled before false).m_enabled = false ∧
      ∀ key, QHash.find (highlightBlock qt (setEnabled before false) text).checker.m_wordCache key
        = QHash.find before.m_wordCache key := by
  have hblock : ∀ d : SpellChecker, d.m_enabled = false →
      highlightBlock qt d text = { formats := [], queries := [], checker := d } := by
    intro d hd
    simp [highlightBlock, isEnabled, hd]
  rw [hblock s hoff]
  refine ⟨rfl, rfl, rfl, ?_⟩
  intro before
  refine ⟨rfl, ?_⟩
  intro key
  rw [hblock (setEnabled before false) rfl]
  rfl

theorem C15_disabled_highlights_nothing_witness :
    QHash.find (setEnabled staleState false).m_wordCache (utf16 "helo") = some false ∧
    (highlightBlock asciiTables (setEnabled staleState false)
      (utf16 "helo wrold")).formats = [] :=
  ⟨by decide,
    (C15_disabled_highlights_nothing asciiTables (setEnabled staleState false)
      (utf16 "helo wrold") rfl).1⟩

/-- C16, evaluated on the code: the specification asks that a custom theme
loaded from `X.json` is listed as `Custom: X`, the prefix applied once. With a
themes directory holding a valid `X.json` (and a `broken.json` that does not
parse), `loadAvailableThemes` stores the theme under the key `Custom: X`, and
`availableThemeNames` prefixes that key again: the list is
`Black`, `Custom: Custom: X`, `Dark`, `Light`, `White`. -/
theorem C16_custom_prefix_applied_twice :
    (Theme.loadAvailableThemes sampleThemeEnv (freshTheme (utf16 "Dark"))).availableThemes_.map
        (fun entry => entry.1)
      = [utf16 "Black", utf16 "Custom: X", utf16 "Dark", utf16 "Light", utf16 "White"] ∧
    Theme.availableThemeNames (Theme.loadAvailableThemes sampleThemeEnv (freshTheme (utf16 "Dark")))
      = [utf16 "Black", utf16 "Custom: Custom: X", utf16 "Dark", utf16 "Light",
          utf16 "White"] := by
  decide

/-- C18: the debounce as a state machine over the events `enabledChanged` and
timer expiry, after any earlier events `pre`. Every `enabledChanged` leaves the
single-shot timer of 100 ms running; a burst of one or more `enabledChanged`
triggers no rehighlight by itself and exactly one at the next expiry, and none
at a further expiry; and an expiry triggers a rehighlight only when the event
just before it was an `enabledChanged`, so never right after construction or
right after another expiry. -/
theorem C18_debounce_one_rehighlight_per_burst (pre : List DebounceEvent) (flags : List Bool)
    (hn : 1 ≤ flags.length) :
    (∀ flag, ((SpellCheckHighlighter.construct.run pre).step
        (DebounceEvent.enabledChanged flag)).m_rehighlightTimer
      = { singleShot := true, interval := 100, active := true }) ∧
    (SpellCheckHighlighter.construct.run
        (pre ++ flags.map DebounceEvent.enabledChanged)).rehighlights
      = (SpellCheckHighlighter.construct.run pre).rehighlights ∧
    (SpellCheckHighlighter.construct.run
        (pre ++ flags.map DebounceEvent.enabledChanged ++ [DebounceEvent.expiry])).rehighlights
      = (SpellCheckHighlighter.construct.run pre).rehighlights + 1 ∧
    (SpellCheckHighlighter.construct.run
        ((pre ++ flags.map DebounceEvent.enabledChanged ++ [DebounceEvent.expiry])
          ++ [DebounceEvent.expiry])).rehighlights
      = (SpellCheckHighlighter.construct.run pre).rehighlights + 1 ∧
    ((SpellCheckHighlighter.construct.run (pre ++ [DebounceEvent.expiry])).rehighlights
        = (SpellCheckHighlighter.construct.run pre).rehighlights + 1
      ↔ ∃ before flag, pre = before ++ [DebounceEvent.enabledChanged flag]) ∧
    ((¬ ∃ before flag, pre = before ++ [DebounceEvent.enabledChanged flag]) →
      (SpellCheckHighlighter.construct.run (pre ++ [DebounceEvent.expiry])).rehighlights
        = (SpellCheckHighlighter.construct.run pre).rehighlights) := by
  have hburst : (SpellCheckHighlighter.construct.run
      (pre ++ flags.map DebounceEvent.enabledChanged)).rehighlights
        = (SpellCheckHighlighter.construct.run pre).rehighlights := by
    rw [SpellCheckHighlighter.run_append, SpellCheckHighlighter.rehighlights_changes]
  have hfirst : (SpellCheckHighlighter.construct.run
      (pre ++ flags.map DebounceEvent.enabledChanged ++ [DebounceEvent.expiry])).rehighlights
        = (SpellCheckHighlighter.construct.run pre).rehighlights + 1 := by
    rw [SpellCheckHighlighter.rehighlights_expiry,
      SpellCheckHighlighter.endsWithEnabledChanged_burst pre flags hn, hburst]
    rfl
  refine ⟨?_, hburst, hfirst, ?_, ?_, ?_⟩
  · intro flag
    rw [← SpellCheckHighlighter.run_concat, SpellCheckHighlighter.timer_after,
      SpellCheckHighlighter.endsWithEnabledChanged_changed]
  · rw [SpellCheckHighlighter.rehighlights_expiry,
      SpellCheckHighlighter.endsWithEnabledChanged_expiry, hfirst]
    rfl
  · rw [SpellCheckHighlighter.rehighlights_expiry,
      ← SpellCheckHighlighter.endsWithEnabledChanged_iff]
    cases endsWithEnabledChanged pre <;> simp
  · intro hlast
    rw [← SpellCheckHighlighter.endsWithEnabledChanged_iff] at hlast
    rw [SpellCheckHighlighter.rehighlights_expiry]
    simp [hlast]

theorem C18_debounce_one_rehighlight_per_burst_witness :
    (SpellCheckHighlighter.construct.run
      ([DebounceEvent.expiry]
        ++ [true, false, true].map DebounceEvent.enabledChanged ++ [DebounceEvent.expiry])).rehighlights
      = (SpellCheckHighlighter.construct.run [DebounceEvent.expiry]).rehighlights + 1 ∧
    (SpellCheckHighlighter.construct.run [DebounceEvent.expiry]).rehighlights = 0 :=
  ⟨(C18_debounce_one_rehighlight_per_burst [DebounceEvent.expiry] [true, false, true]
      (by decide)).2.2.1, by decide⟩

/-- C19: `Theme::update` falls back exactly when the selected name is not a key
of the available themes or the file of the selected theme does not load as a
JSON object, and the fallback is the built-in Dark theme. When it falls back
and the fallback loads, the fallback object is parsed into the fields and
`updated` is invoked once; when the fallback does not load either, the state is
unchanged: no field changes and `updated` is not invoked. When the selected
theme loads, it is the one parsed, and `updated` is invoked once. -/
theorem C19_update_falls_back_to_dark {Json Fields : Type} (env : ThemeEnv Json Fields)
    (t : Theme Fields) :
    ((Theme.update env t).1 = true ↔
      (ThemeMap.find t.availableThemes_ t.themeName = none ∨
        ∃ d, ThemeMap.find t.availableThemes_ t.themeName = some d ∧ loadTheme env d = none)) ∧
    (fallbackTheme.path = (utf16 ":/themes/Dark.json") ∧ fallbackTheme.custom = false ∧
      ThemeMap.find builtInThemes (utf16 "Dark") = some fallbackTheme) ∧
    (∀ object, (Theme.update env t).1 = true → loadTheme env fallbackTheme = some object →
      (Theme.update env t).2
        = { t with fields := env.parseFrom object t.fields
                   updatedInvocations := t.updatedInvocations + 1 }) ∧
    ((Theme.update env t).1 = true → loadTheme env fallbackTheme = none →
      (Theme.update env t).2 = t) ∧
    (∀ d object, ThemeMap.find t.availableThemes_ t.themeName = some d →
      loadTheme env d = some object →
      (Theme.update env t)
        = (false, { t with fields := env.parseFrom object t.fields
                           updatedInvocations := t.updatedInvocations + 1 })) := by
  refine ⟨?_, ⟨by decide, by decide, by decide⟩, ?_, ?_, ?_⟩
  · cases hfind : ThemeMap.find t.availableThemes_ t.themeName with
    | none =>
      simp only [Theme.update, hfind]
      cases loadTheme env fallbackTheme <;> simp
    | some d =>
      cases hload : loadTheme env d with
      | none =>
        simp only [Theme.update, hfind, hload]
        cases loadTheme env fallbackTheme <;> simp [hload]
      | some object => simp [Theme.update, hfind, hload]
  · intro object hfell hfb
    cases hfind : ThemeMap.find t.availableThemes_ t.themeName with
    | none => simp [Theme.update, hfind, hfb]
    | some d =>
      cases hload : loadTheme env d with
      | none => simp [Theme.update, hfind, hload, hfb]
      | some other => simp [Theme.update, hfind, hload] at hfell
  · intro hfell hfb
    cases hfind : ThemeMap.find t.availableThemes_ t.themeName with
    | none => simp [Theme.update, hfind, hfb]
    | some d =>
      cases hload : loadTheme env d with
      | none => simp [Theme.update, hfind, hload, hfb]
      | some other => simp [Theme.update, hfind, hload] at hfell
  · intro d object hfind hload
    simp [Theme.update, hfind, hload]

theorem C19_update_falls_back_to_dark_witness :
    (Theme.update sampleThemeEnv
      (Theme.loadAvailableThemes sampleThemeEnv (freshTheme (utf16 "Missing")))).2.fields
        = [utf16 "dark object"] ∧
    (Theme.update sampleThemeEnv
      (Theme.loadAvailableThemes sampleThemeEnv (freshTheme (utf16 "Missing")))).2.updatedInvocations
        = 1 ∧
    (Theme.update emptyThemeEnv
      (Theme.loadAvailableThemes emptyThemeEnv (freshTheme (utf16 "Missing")))).2
        = Theme.loadAvailableThemes emptyThemeEnv (freshTheme (utf16 "Missing")) := by
  have h := C19_update_falls_back_to_dark sampleThemeEnv
    (Theme.loadAvailableThemes sampleThemeEnv (freshTheme (utf16 "Missing")))
  have h0 := C19_update_falls_back_to_dark emptyThemeEnv
    (Theme.loadAvailableThemes emptyThemeEnv (freshTheme (utf16 "Missing")))
  have hfell := h.1.mpr (Or.inl (by decide))
  have hfell0 := h0.1.mpr (Or.inl (by decide))
  have hparsed := h.2.2.1 (utf16 "dark object") hfell (by decide)
  exact ⟨by rw [hparsed]; rfl, by rw [hparsed]; rfl, h0.2.2.2.1 hfell0 rfl⟩

/-- C20: the save/load round trip of the personal dictionary. When every entry
is not empty, holds no line break and neither starts nor ends with white
space, and the file can be written, loading the file that
`savePersonalDictionary` writes, into the empty dictionary of a new
coordinator, yields the same entries in the same order. -/
theorem C20_save_then_load_round_trip (qt : QtTables) (s : SpellChecker)
    (enableSpellCheck : Bool) (platform : Option Backend) (writable : Bool)
    (hw : s.dictFileWritable = true)
    (hsafe : ∀ entry ∈ s.m_personalDictionary, lineSafe qt entry = true) :
    (loadPersonalDictionary qt
      { savePersonalDictionary s with m_personalDictionary := [] }).m_personalDictionary
        = s.m_personalDictionary ∧
    (construct qt enableSpellCheck platform (savePersonalDictionary s).dictFile
      writable).m_personalDictionary = s.m_personalDictionary := by
  rw [savePersonalDictionary_writable s hw]
  constructor
  · simp only [loadPersonalDictionary]
    exact load_written qt s.m_personalDictionary hsafe
  · simp only [construct, loadPersonalDictionary]
    exact load_written qt s.m_personalDictionary hsafe

theorem C20_save_then_load_round_trip_witness :
    (construct asciiTables true none
      (savePersonalDictionary
        { staleState with m_personalDictionary := [utf16 "chatterino", utf16 "it's ok"] }).dictFile
      true).m_personalDictionary = [utf16 "chatterino", utf16 "it's ok"] :=
  (C20_save_then_load_round_trip asciiTables
    { staleState with m_personalDictionary := [utf16 "chatterino", utf16 "it's ok"] }
    true none true rfl (by decide)).2

/-- C21: `isWordCorrect` on a word changes nothing but the cache entry of that
word. The enable flag, the personal dictionary, the backend handle and the
dictionary file are unchanged; the cache entry of every other word is
unchanged; an entry already cached for the word keeps its verdict (the whole
state is then unchanged). So every entry of the cache before the call is in the
cache after it with the same verdict: the cache only grows and no cached
verdict is changed. The ghost counter of backend calls is no member of the
class and is left out. -/
theorem C21_isWordCorrect_touches_only_own_entry (qt : QtTables) (s : SpellChecker)
    (word : QString) :
    ((isWordCorrect qt s word).2.m_enabled = s.m_enabled ∧
      (isWordCorrect qt s word).2.m_personalDictionary = s.m_personalDictionary ∧
      (isWordCorrect qt s word).2.m_backend = s.m_backend ∧
      (isWordCorrect qt s word).2.dictFile = s.dictFile ∧
      (isWordCorrect qt s word).2.dictFileWritable = s.dictFileWritable) ∧
    (∀ other, other ≠ word →
      QHash.find (isWordCorrect qt s word).2.m_wordCache other
        = QHash.find s.m_wordCache other) ∧
    (∀ v, QHash.find s.m_wordCache word = some v →
      QHash.find (isWordCorrect qt s word).2.m_wordCache word = some v ∧
        (isWordCorrect qt s word).2 = s) ∧
    (∀ key v, QHash.find s.m_wordCache key = some v →
      QHash.find (isWordCorrect qt s word).2.m_wordCache key = some v) := by
  obtain ⟨hen, hdict, hback⟩ := isWordCorrect_frame qt s word
  obtain ⟨hfile, hwritable⟩ := isWordCorrect_frame_file qt s word
  have hown : ∀ v, QHash.find s.m_wordCache word = some v →
      QHash.find (isWordCorrect qt s word).2.m_wordCache word = some v ∧
        (isWordCorrect qt s word).2 = s := by
    intro v hfind
    have hsame := isWordCorrect_state_of_cached qt s word v hfind
    exact ⟨by rw [hsame]; exact hfind, hsame⟩
  refine ⟨⟨hen, hdict, hback, hfile, hwritable⟩,
    fun other hne => isWordCorrect_find_other qt s word other hne, hown, ?_⟩
  intro key v hfind
  by_cases hkey : key = word
  · subst hkey
    exact (hown v hfind).1
  · rw [isWordCorrect_find_other qt s word key hkey]
    exact hfind

theorem C21_isWordCorrect_touches_only_own_entry_witness :
    QHash.find (isWordCorrect asciiTables staleState (utf16 "wrold")).2.m_wordCache
        (utf16 "helo") = some false ∧
    QHash.find (isWordCorrect asciiTables staleState (utf16 "wrold")).2.m_wordCache
        (utf16 "wrold") = some true ∧
    (isWordCorrect asciiTables staleState (utf16 "helo")).2 = staleState :=
  ⟨(C21_isWordCorrect_touches_only_own_entry asciiTables staleState
      (utf16 "wrold")).2.2.2 (utf16 "helo") false (by decide),
    by decide,
    ((C21_isWordCorrect_touches_only_own_entry asciiTables staleState
      (utf16 "helo")).2.2.1 false (by decide)).2⟩

end chatterino
